import Mathlib

/-!
Verification development for the EURLex-unDump batch renamer (`undump.py`).

Strings are modelled as `List Char`.  The Unicode NFKD normalisation used in
`slugify` step 1 is modelled as a parameter `nfkd : Char → List Char`
(the per-character decomposition); the only fact the program relies on is
that ASCII characters are NFKD-invariant, which is carried as an explicit
hypothesis where needed.  `Python`'s `str.encode("ascii", "ignore")` is the
filter keeping code points below 128.
-/

namespace Undump

/-- Characters allowed by the slugify whitelist `[A-Za-z0-9._-]`
(code points: A-Z = 65..90, a-z = 97..122, 0-9 = 48..57). -/
def isSafeChar (c : Char) : Bool :=
  (65 ≤ c.toNat && c.toNat ≤ 90) || (97 ≤ c.toNat && c.toNat ≤ 122) ||
  (48 ≤ c.toNat && c.toNat ≤ 57) || c == '.' || c == '_' || c == '-'

/-- Characters stripped by `strip("._-")` in slugify steps 3 and 4. -/
def isPunct (c : Char) : Bool :=
  c == '.' || c == '_' || c == '-'

/-- Model of `unicodedata.normalize("NFKD", raw).encode("ascii", "ignore")`:
apply the per-character decomposition `nfkd`, then drop every non-ASCII
character. -/
def translit (nfkd : Char → List Char) (s : List Char) : List Char :=
  (s.map nfkd).flatten.filter (fun c => decide (c.toNat < 128))

/-- Model of `re.sub(r"[^A-Za-z0-9._-]+", "_", s)`: every maximal run of
characters outside the whitelist becomes a single underscore.  The Boolean
argument records whether we are inside such a run. -/
def subBad : Bool → List Char → List Char
  | _, [] => []
  | inRun, c :: cs =>
    if isSafeChar c then c :: subBad false cs
    else if inRun then subBad true cs
    else '_' :: subBad true cs

/-- Model of Python `str.rstrip` for a character class `p`: remove the
longest suffix of characters satisfying `p`. -/
def rstripP (p : Char → Bool) : List Char → List Char
  | [] => []
  | c :: cs =>
    let r := rstripP p cs
    if r = [] then (if p c then [] else [c]) else c :: r

/-- Model of Python `str.strip` for a character class `p`: `lstrip` then
`rstrip`. -/
def stripP (p : Char → Bool) (l : List Char) : List Char :=
  rstripP p (l.dropWhile p)

/-- Steps 1-4 of `slugify`: transliterate, replace bad runs, strip `._-`,
truncate to `maxLen` and re-strip the trailing `._-`. -/
def sanitizeCore (nfkd : Char → List Char) (raw : List Char) (maxLen : Nat) : List Char :=
  rstripP isPunct ((stripP isPunct (subBad false (translit nfkd raw))).take maxLen)

/-- Model of `slugify(raw, max_len)` from `undump.py`: the sanitized string,
or the literal fallback `"unnamed"` when it is empty. -/
def slugify (nfkd : Char → List Char) (raw : List Char) (maxLen : Nat) : List Char :=
  let safe := sanitizeCore nfkd raw maxLen
  if safe = [] then "unnamed".toList else safe

/-- Concrete NFKD oracle that is the identity on ASCII and drops everything
else; it coincides with the real NFKD + ascii-ignore pipeline on ASCII
input, which is all the concrete test inputs below use. -/
def nfkdAscii (c : Char) : List Char :=
  if c.toNat < 128 then [c] else []

example : slugify nfkdAscii "Hello, World!".toList 30 = "Hello_World".toList := by decide
example : slugify nfkdAscii "".toList 30 = "unnamed".toList := by decide
example : slugify nfkdAscii "...".toList 30 = "unnamed".toList := by decide
example : slugify nfkdAscii "abcdef".toList 3 = "abc".toList := by decide
example : slugify nfkdAscii "ab.cdef".toList 3 = "ab".toList := by decide
example : slugify nfkdAscii "".toList 3 = "unnamed".toList := by decide
example : slugify nfkdAscii "unnamed".toList 3 = "unn".toList := by decide

/-- Field mappings (`Mapping[str, str]` in the source) as association
lists. -/
def FieldMap : Type := List (List Char × List Char)

/-- Model of the `_SafeDict` lookup inside `render_mask`: a present key maps
to its value, a missing key to the visible diagnostic `[<key>NotFound]`. -/
def lookupField (values : FieldMap) (k : List Char) : List Char :=
  match values.find? (fun p => p.1 == k) with
  | some p => p.2
  | none => '[' :: (k ++ "NotFound]".toList)

/-- Model of `str.format_map` restricted to the plain named placeholders this
program uses.  The first argument is the parser mode: `none` for literal
text, `some acc` while accumulating a field name between braces.  `\x7b\x7b`
and `\x7d\x7d` are the brace escapes; a dangling or stray brace is a render
error (`ValueError` in Python), modelled as `none`. -/
def renderLoop (values : FieldMap) : Option (List Char) → List Char → Option (List Char)
  | none, [] => some []
  | some _, [] => none
  | none, c :: rest =>
    if c = '\x7b' then
      match rest with
      | d :: rest2 =>
        if d = '\x7b' then Option.map (fun t => '\x7b' :: t) (renderLoop values none rest2)
        else renderLoop values (some []) (d :: rest2)
      | [] => renderLoop values (some []) []
    else if c = '\x7d' then
      match rest with
      | d :: rest2 =>
        if d = '\x7d' then Option.map (fun t => '\x7d' :: t) (renderLoop values none rest2)
        else none
      | [] => none
    else Option.map (fun t => c :: t) (renderLoop values none rest)
  | some acc, c :: rest =>
    if c = '\x7d' then Option.map (fun t => lookupField values acc ++ t) (renderLoop values none rest)
    else if c = '\x7b' then none
    else renderLoop values (some (acc ++ [c])) rest

/-- Model of `render_mask(mask, values)` from `undump.py`. -/
def render_mask (mask : List Char) (values : FieldMap) : Option (List Char) :=
  renderLoop values none mask

example :
    render_mask ('\x7b' :: ("year".toList ++ '\x7d' :: "/ok".toList))
      [("year".toList, "2020".toList)] = some "2020/ok".toList := by decide
example :
    render_mask ('\x7b' :: ("nope".toList ++ ['\x7d']))
      [("year".toList, "2020".toList)] = some "[nopeNotFound]".toList := by decide
example : render_mask "ab".toList [] = some "ab".toList := by decide
example : render_mask ['\x7b'] [] = none := by decide
example : render_mask ['\x7b', '\x7b'] [] = some ['\x7b'] := by decide

/-- One SPARQL result row of the fixed query in `parse_metadata`:
`SELECT ?date ?eli ?type ?year ?title ?subtitle ?celex_identifier`. -/
structure QueryRow where
  date : List Char
  eli : List Char
  type : List Char
  year : List Char
  title : List Char
  subtitle : List Char
  celex_identifier : List Char
deriving DecidableEq

/-- Prepend a character to the first part of a split result. -/
def consHead (c : Char) : List (List Char) → List (List Char)
  | [] => [[c]]
  | h :: t => (c :: h) :: t

/-- Model of Python `str.split(sep)` with an explicit one-character
separator: empty parts are kept. -/
def splitOnChar (sep : Char) : List Char → List (List Char)
  | [] => [[]]
  | c :: cs =>
    if c = sep then [] :: splitOnChar sep cs
    else consHead c (splitOnChar sep cs)

example : splitOnChar '-' "2020-05-17".toList = ["2020".toList, "05".toList, "17".toList] := by
  decide
example : splitOnChar '-' "".toList = [[]] := by decide
example : splitOnChar '-' "a--b".toList = ["a".toList, [], "b".toList] := by decide

def defaultIdentifierKey : List Char := "default_identifier".toList

/-- Model of `parse_metadata(rdf_path, language)` from `undump.py`, with the
externally produced inputs made explicit: `uuid` is the metadata document's
parent directory name and `res` the result rows of the fixed SPARQL query
(the query itself runs in `rdflib` and is outside the model).  With no
result rows the fixed default record is returned; otherwise the first row
is used, the date is split at `-` into exactly three components (any other
shape leaves all three empty, as the `ValueError` handler does), and the
title is slugified with the default cap of 30. -/
def parse_metadata (nfkd : Char → List Char) (uuid : List Char) (res : List QueryRow) :
    FieldMap :=
  match res with
  | [] =>
    [("year".toList, "1970".toList), ("month".toList, "01".toList),
     ("day".toList, "01".toList), ("date".toList, "1970-01-01".toList),
     ("title".toList, "Untitled".toList), ("subtitle".toList, []),
     ("type".toList, "UNKNOWN".toList), ("eli".toList, []),
     ("celex_identifier".toList, []), (defaultIdentifierKey, uuid)]
  | row :: _ =>
    let dateStr := row.date
    let comps : List Char × List Char × List Char :=
      match splitOnChar '-' dateStr with
      | [y, m, d] => (y, m, d)
      | _ => ([], [], [])
    [("year".toList, comps.1), ("month".toList, comps.2.1),
     ("day".toList, comps.2.2), ("date".toList, dateStr),
     ("title".toList, slugify nfkd row.title 30), ("subtitle".toList, row.subtitle),
     ("type".toList, row.type), ("eli".toList, row.eli),
     ("celex_identifier".toList, row.celex_identifier), (defaultIdentifierKey, uuid)]

/-- Model of `dict.get(k)` on a field mapping (`none` when the key is
absent). -/
def getField (md : FieldMap) (k : List Char) : Option (List Char) :=
  match md.find? (fun p => p.1 == k) with
  | some p => some p.2
  | none => none

/-- Modelled from the spec's words "The creation date is expected in
`YYYY-MM-DD` form": four digits, a dash, two digits, a dash, two digits.
(The code itself never checks this; it only counts dash-separated parts.) -/
def dateIsYYYYMMDD (s : List Char) : Bool :=
  match splitOnChar '-' s with
  | [y, m, d] =>
    decide (y.length = 4) && y.all Char.isDigit && decide (m.length = 2)
      && m.all Char.isDigit && decide (d.length = 2) && d.all Char.isDigit
  | _ => false

/-- Fixture row with a malformed (non-`YYYY-MM-DD`) date that still has
exactly three dash-separated parts. -/
def rowMalformedDate : QueryRow :=
  ⟨"a-b-c".toList, [], [], [], [], [], []⟩

/-- Fixture row with a well-formed date. -/
def rowGoodDate : QueryRow :=
  ⟨"2020-05-17".toList, [], [], [], "Example Title".toList, [], []⟩

/-- Fixture row whose date has no dash at all. -/
def rowNoDashDate : QueryRow :=
  ⟨"x".toList, [], [], [], [], [], []⟩

/-- Lexicographic comparison of strings by code point, the order Python's
`sorted(..., key=lambda p: p.as_posix())` uses on posix path strings. -/
def lexLe : List Char → List Char → Bool
  | [], _ => true
  | _ :: _, [] => false
  | a :: as, b :: bs =>
    if a.toNat < b.toNat then true
    else if b.toNat < a.toNat then false
    else lexLe as bs

def relLe (a b : List Char) : Prop := lexLe a b = true

instance : DecidableRel relLe := fun a b => inferInstanceAs (Decidable (lexLe a b = true))

instance : IsTotal (List Char) relLe where
  total := by
    intro a
    induction a with
    | nil => intro b; left; rfl
    | cons x xs ih =>
      intro b
      cases b with
      | nil => right; rfl
      | cons y ys =>
        by_cases h1 : x.toNat < y.toNat
        · left
          simp [relLe, lexLe, h1]
        · by_cases h2 : y.toNat < x.toNat
          · right
            simp [relLe, lexLe, h1, h2]
          · rcases ih ys with h | h
            · left
              simpa [relLe, lexLe, h1, h2] using h
            · right
              simpa [relLe, lexLe, h1, h2] using h

instance : IsTrans (List Char) relLe where
  trans := by
    intro a
    induction a with
    | nil =>
      intro b c _ _
      rfl
    | cons x xs ih =>
      intro b c hab hbc
      cases b with
      | nil => exact absurd hab (by simp [relLe, lexLe])
      | cons y ys =>
        cases c with
        | nil => exact absurd hbc (by simp [relLe, lexLe])
        | cons z zs =>
          have hab' : x.toNat ≤ y.toNat ∧ (x.toNat = y.toNat → relLe xs ys) := by
            by_cases h1 : x.toNat < y.toNat
            · exact ⟨by omega, fun h => absurd h (by omega)⟩
            · by_cases h2 : y.toNat < x.toNat
              · have : lexLe (x :: xs) (y :: ys) = false := by simp [lexLe, h1, h2]
                rw [relLe, this] at hab
                exact absurd hab (by simp)
              · have : lexLe (x :: xs) (y :: ys) = lexLe xs ys := by simp [lexLe, h1, h2]
                rw [relLe, this] at hab
                exact ⟨by omega, fun _ => hab⟩
          have hbc' : y.toNat ≤ z.toNat ∧ (y.toNat = z.toNat → relLe ys zs) := by
            by_cases h1 : y.toNat < z.toNat
            · exact ⟨by omega, fun h => absurd h (by omega)⟩
            · by_cases h2 : z.toNat < y.toNat
              · have : lexLe (y :: ys) (z :: zs) = false := by simp [lexLe, h1, h2]
                rw [relLe, this] at hbc
                exact absurd hbc (by simp)
              · have : lexLe (y :: ys) (z :: zs) = lexLe ys zs := by simp [lexLe, h1, h2]
                rw [relLe, this] at hbc
                exact ⟨by omega, fun _ => hbc⟩
          by_cases hxz : x.toNat < z.toNat
          · simp [relLe, lexLe, hxz]
          · have hzx : ¬ z.toNat < x.toNat := by omega
            have hxy : x.toNat = y.toNat := by omega
            have hyz : y.toNat = z.toNat := by omega
            have h := ih ys zs (hab'.2 hxy) (hbc'.2 hyz)
            simpa [relLe, lexLe, hxz, hzx] using h

/-- Model of the file selection in `main`: sort all enumerated files by
their posix path and, when `--limit` is given and positive, keep the first
`limit` of them (`files[:limit]`); a non-positive or absent limit keeps
everything. -/
def selectFiles (files : List (List Char)) (limit : Option Int) : List (List Char) :=
  let sortedFiles := List.insertionSort relLe files
  match limit with
  | some n => if 0 < n then sortedFiles.take n.toNat else sortedFiles
  | none => sortedFiles

example : selectFiles ["b".toList, "a".toList, "c".toList] (some 2)
    = ["a".toList, "b".toList] := by decide
example : selectFiles ["b".toList, "a".toList] (some 0) = ["a".toList, "b".toList] := by decide
example : selectFiles ["b".toList, "a".toList] none = ["a".toList, "b".toList] := by decide

/-- Filesystem path: parent directory segments plus a final name, the part
of `pathlib.Path` this program manipulates. -/
structure Pth where
  dir : List (List Char)
  name : List Char
deriving DecidableEq

/-- Split a name around its last dot: `some (before, after)`, or `none` when
it has no dot.  Scanning the reversed name, the characters before the first
reversed dot are the (reversed) extension and the rest of the reversal is
the (reversed) prefix. -/
def splitLastDot (name : List Char) : Option (List Char × List Char) :=
  let d := name.reverse.dropWhile (fun c => !(c == '.'))
  if d.head? = some '.'
  then some (d.tail.reverse, (name.reverse.takeWhile (fun c => !(c == '.'))).reverse)
  else none

/-- Model of `pathlib.PurePath.suffix`: the part of the name from its last
dot on, unless the dot is the first or last character. -/
def sfx (name : List Char) : List Char :=
  match splitLastDot name with
  | some (bef, aft) => if bef ≠ [] ∧ aft ≠ [] then '.' :: aft else []
  | none => []

/-- Model of `pathlib.PurePath.stem`: the name with `sfx` removed. -/
def stm (name : List Char) : List Char :=
  match splitLastDot name with
  | some (bef, aft) => if bef ≠ [] ∧ aft ≠ [] then bef else name
  | none => name

example : sfx "a.txt".toList = ".txt".toList := by decide
example : stm "a.txt".toList = "a".toList := by decide
example : sfx "archive.tar.gz".toList = ".gz".toList := by decide
example : stm "archive.tar.gz".toList = "archive.tar".toList := by decide
example : sfx ".bashrc".toList = [] := by decide
example : sfx "file.".toList = [] := by decide
example : sfx "noext".toList = [] := by decide

/-- Model of `Path.with_stem(s)` = `with_name(s + suffix)`. -/
def withStem (p : Pth) (s : List Char) : Pth :=
  ⟨p.dir, s ++ sfx p.name⟩

/-- Decimal digits of a natural number, i.e. Python `str(n)` for `n ≥ 0`. -/
def natDigits (n : Nat) : List Char :=
  if _ : n < 10 then [Nat.digitChar n]
  else natDigits (n / 10) ++ [Nat.digitChar (n % 10)]
termination_by n
decreasing_by exact Nat.div_lt_self (by omega) (by omega)

/-- The candidate sequence of `ensure_unique_path`: candidate 0 is the
original path, and candidate `k+1` re-stems the previous candidate with
`f"{path.stem}_{fallback}_{k+1}"`. -/
def cand (path : Pth) (fallback : List Char) : Nat → Pth
  | 0 => path
  | k + 1 =>
    withStem (cand path fallback k)
      (stm path.name ++ '_' :: (fallback ++ '_' :: natDigits (k + 1)))

/-- Largest name length among the existing paths. -/
def maxNameLen (fs : List Pth) : Nat :=
  fs.foldr (fun p m => max p.name.length m) 0

def le_maxNameLen : ∀ (fs : List Pth) (p : Pth), p ∈ fs → p.name.length ≤ maxNameLen fs := by
  intro fs
  induction fs with
  | nil =>
    intro p hp
    simp at hp
  | cons q qs ih =>
    intro p hp
    rcases List.mem_cons.mp hp with rfl | hp
    · simp only [maxNameLen, List.foldr_cons]
      omega
    · have := ih p hp
      simp only [maxNameLen, List.foldr_cons] at this ⊢
      omega

def natDigits_ne_nil : ∀ n, natDigits n ≠ [] := by
  intro n
  rw [natDigits.eq_def]
  split
  · simp
  · simp

def natDigits_len : ∀ (B n : Nat), 10 ^ B ≤ n → B + 1 ≤ (natDigits n).length := by
  intro B
  induction B with
  | zero =>
    intro n _
    cases h : natDigits n with
    | nil => exact absurd h (natDigits_ne_nil n)
    | cons c cs => simp
  | succ B ih =>
    intro n hn
    have h10 : ¬ n < 10 := by
      have h1 : (10 : Nat) ≤ 10 ^ (B + 1) := by
        calc (10 : Nat) = 10 ^ 1 := by norm_num
          _ ≤ 10 ^ (B + 1) := Nat.pow_le_pow_right (by omega) (by omega)
      omega
    have heq : natDigits n = natDigits (n / 10) ++ [Nat.digitChar (n % 10)] := by
      rw [natDigits.eq_def]
      rw [dif_neg h10]
    have hdiv : 10 ^ B ≤ n / 10 := by
      rw [Nat.le_div_iff_mul_le (by omega)]
      calc 10 ^ B * 10 = 10 ^ (B + 1) := (pow_succ 10 B).symm
        _ ≤ n := hn
    have := ih (n / 10) hdiv
    rw [heq, List.length_append]
    simp only [List.length_singleton]
    omega

def cand_len : ∀ (path : Pth) (fb : List Char) (k : Nat),
    (natDigits (k + 1)).length ≤ (cand path fb (k + 1)).name.length := by
  intro path fb k
  simp only [cand, withStem, List.length_append, List.length_cons]
  omega

def exists_free_cand : ∀ (fs : List Pth) (path : Pth) (fb : List Char),
    ∃ k, cand path fb k ∉ fs := by
  intro fs path fb
  refine ⟨10 ^ (maxNameLen fs), ?_⟩
  intro hmem
  have hb := le_maxNameLen fs _ hmem
  have hpos : 0 < 10 ^ (maxNameLen fs) := pow_pos (by norm_num) _
  have hdig : maxNameLen fs + 1 ≤ (natDigits (10 ^ (maxNameLen fs))).length :=
    natDigits_len _ _ (le_refl _)
  have hK1 : 10 ^ (maxNameLen fs) = (10 ^ (maxNameLen fs) - 1) + 1 := by omega
  have hlen := cand_len path fb (10 ^ (maxNameLen fs) - 1)
  rw [← hK1] at hlen
  omega

/-- Model of `ensure_unique_path(path, fallback)` from `undump.py` against an
explicit set `fs` of existing paths: the first candidate in the sequence
that does not exist.  The `while candidate.exists()` loop terminates
because `exists_free_cand` exhibits a free candidate. -/
def ensure_unique_path (fs : List Pth) (path : Pth) (fallback : List Char) : Pth :=
  cand path fallback (Nat.find (exists_free_cand fs path fallback))

/-- Characters stripped from a rendered folder mask, `strip("/\\")`. -/
def isSlash (c : Char) : Bool :=
  c == '/' || c == '\\'

/-- Model of `pathlib.Path(s).parts` for the relative sub-paths this program
builds: split at `/`, dropping empty segments and single dots (pathlib
collapses both). -/
def pathParts (s : List Char) : List (List Char) :=
  (splitOnChar '/' s).filter (fun seg => !(seg.isEmpty) && !(seg == ['.']))

example : pathParts "2020/05".toList = ["2020".toList, "05".toList] := by decide
example : pathParts "a//./b".toList = ["a".toList, "b".toList] := by decide

/-- Model of `build_destination` from `undump.py`: render the folder mask,
strip slashes and join its parts under the output root; render the file
mask, trim whitespace, falling back to `default_identifier` and then to the
source stem; append the source file's suffix verbatim.  `none` models a
`ValueError` escaping from `str.format_map` on a malformed mask. -/
def build_destination (output_root : List (List Char)) (md : FieldMap)
    (folder_mask file_mask : List Char) (srcName : List Char) : Option Pth :=
  match render_mask folder_mask md with
  | none => none
  | some rawSubR =>
    let rawSub := stripP isSlash rawSubR
    let destDir := if rawSub = [] then output_root else output_root ++ pathParts rawSub
    match render_mask file_mask md with
    | none => none
    | some rendered =>
      let rawStem :=
        match stripP Char.isWhitespace rendered with
        | [] =>
          match getField md defaultIdentifierKey with
          | some v => if v = [] then stm srcName else v
          | none => stm srcName
        | s :: t => s :: t
      some ⟨destDir, rawStem ++ sfx srcName⟩

example :
    build_destination ["out".toList]
      [("title".toList, "T1".toList), (defaultIdentifierKey, "id9".toList)]
      [] ('\x7b' :: ("title".toList ++ ['\x7d'])) "doc.pdf".toList
    = some ⟨["out".toList], "T1.pdf".toList⟩ := by decide
example :
    build_destination ["out".toList]
      [("title".toList, " ".toList), (defaultIdentifierKey, "id9".toList)]
      [] ('\x7b' :: ("title".toList ++ ['\x7d'])) "doc.pdf".toList
    = some ⟨["out".toList], "id9.pdf".toList⟩ := by decide
example :
    build_destination ["out".toList] [("title".toList, [])]
      [] ('\x7b' :: ("title".toList ++ ['\x7d'])) "doc.pdf".toList
    = some ⟨["out".toList], "doc.pdf".toList⟩ := by decide

/-- Outcome of processing a single archive file in `copy_with_structure`. -/
inductive ItemResult where
  | skippedNoUuid : ItemResult
  | skippedNoRdf : List Char → ItemResult
  | failed : ItemResult
  | copied : Pth → ItemResult
deriving DecidableEq

/-- Model of `copy_with_structure` from `undump.py`.  The source and archive
root are segment lists; `src.relative_to(archive_root)` succeeds exactly
when the root is a segment prefix, and its first segment is the UUID.
External effects are oracles: `hasRdf` is the `rdf_path.is_file()` check,
`queryOf` yields the SPARQL rows of the item's metadata document, and `fs`
is the set of existing destination paths.  An unresolvable UUID skips the
item before any metadata lookup or copy; a missing RDF document skips it
before any copy; otherwise the destination is computed, disambiguated if it
exists, and the copy is reported. -/
def copy_with_structure (nfkd : Char → List Char) (hasRdf : List Char → Bool)
    (queryOf : List Char → List QueryRow) (fs : List Pth)
    (src : List (List Char)) (archive_root : List (List Char))
    (output_root : List (List Char)) (folder_mask file_mask : List Char) : ItemResult :=
  if archive_root.isPrefixOf src then
    match src.drop archive_root.length with
    | [] => .failed
    | uuid :: _ =>
      if hasRdf uuid then
        let md := parse_metadata nfkd uuid (queryOf uuid)
        match build_destination output_root md folder_mask file_mask (src.getLastD []) with
        | none => .failed
        | some dest =>
          if dest ∈ fs then .copied (ensure_unique_path fs dest uuid)
          else .copied dest
      else .skippedNoRdf uuid
  else .skippedNoUuid

-- ### Theorems

/-- Every whitelisted character is ASCII. -/
theorem safe_ascii {c : Char} (h : isSafeChar c = true) : c.toNat < 128 := by
  unfold isSafeChar at h
  simp only [Bool.or_eq_true, Bool.and_eq_true, decide_eq_true_eq, beq_iff_eq] at h
  rcases h with ((((⟨h1, h2⟩ | ⟨h1, h2⟩) | ⟨h1, h2⟩) | rfl) | rfl) | rfl
  · omega
  · omega
  · omega
  · decide
  · decide
  · decide

theorem subBad_mem_safe : ∀ (b : Bool) (l : List Char), ∀ c ∈ subBad b l, isSafeChar c = true := by
  intro b l
  induction l generalizing b with
  | nil => intro c hc; simp [subBad] at hc
  | cons a as ih =>
    intro c hc
    by_cases ha : isSafeChar a
    · simp only [subBad, ha, if_true, List.mem_cons] at hc
      rcases hc with rfl | hc
      · exact ha
      · exact ih false c hc
    · cases b with
      | true =>
        simp [subBad, ha] at hc
        exact ih true c hc
      | false =>
        simp [subBad, ha] at hc
        rcases hc with rfl | hc
        · decide
        · exact ih true c hc

theorem subBad_eq_self : ∀ (b : Bool) (l : List Char), (∀ c ∈ l, isSafeChar c = true) → subBad b l = l := by
  intro b l
  induction l generalizing b with
  | nil => intro _; rfl
  | cons a as ih =>
    intro h
    have ha : isSafeChar a = true := h a (List.mem_cons_self a as)
    simp only [subBad, ha, if_true]
    rw [ih false (fun c hc => h c (List.mem_cons_of_mem a hc))]

theorem mem_rstripP {p : Char → Bool} {l : List Char} {c : Char} (h : c ∈ rstripP p l) : c ∈ l := by
  induction l with
  | nil => simp [rstripP] at h
  | cons a as ih =>
    by_cases hr : rstripP p as = []
    · by_cases hp : p a
      · simp [rstripP, hr, hp] at h
      · simp [rstripP, hr, hp] at h
        simp [h]
    · simp [rstripP, hr] at h
      rcases h with rfl | h
      · exact List.mem_cons_self _ _
      · exact List.mem_cons_of_mem _ (ih h)

theorem rstripP_getLast? {p : Char → Bool} {l : List Char} {c : Char}
    (h : (rstripP p l).getLast? = some c) : p c = false := by
  induction l with
  | nil => simp [rstripP] at h
  | cons a as ih =>
    by_cases hr : rstripP p as = []
    · by_cases hp : p a
      · simp [rstripP, hr, hp] at h
      · simp [rstripP, hr, hp] at h
        subst h
        exact Bool.eq_false_iff.mpr hp
    · simp only [rstripP] at h
      rw [if_neg hr] at h
      rcases hx : rstripP p as with _ | ⟨b, bs⟩
      · exact absurd hx hr
      · rw [hx, List.getLast?_cons_cons] at h
        rw [hx] at ih
        exact ih h

theorem rstripP_eq_self {p : Char → Bool} {l : List Char}
    (h : ∀ c, l.getLast? = some c → p c = false) : rstripP p l = l := by
  induction l with
  | nil => rfl
  | cons a as ih =>
    cases as with
    | nil =>
      have := h a rfl
      simp [rstripP, this]
    | cons b bs =>
      have htail : rstripP p (b :: bs) = b :: bs := by
        apply ih
        intro c hc
        apply h
        rw [List.getLast?_cons_cons]
        exact hc
      simp only [rstripP] at htail ⊢
      rw [htail]
      rw [if_neg (by simp)]

theorem rstripP_head? {p : Char → Bool} {l : List Char} {c : Char}
    (h : (rstripP p l).head? = some c) : l.head? = some c := by
  induction l with
  | nil => simp [rstripP] at h
  | cons a as _ =>
    by_cases hr : rstripP p as = []
    · by_cases hp : p a
      · simp [rstripP, hr, hp] at h
      · simp [rstripP, hr, hp] at h
        simp [h]
    · simp [rstripP, hr] at h
      simp [h]

theorem rstripP_length {p : Char → Bool} (l : List Char) : (rstripP p l).length ≤ l.length := by
  induction l with
  | nil => simp [rstripP]
  | cons a as ih =>
    by_cases hr : rstripP p as = []
    · by_cases hp : p a <;> simp [rstripP, hr, hp]
    · simp only [rstripP, hr, if_false, List.length_cons]
      omega

theorem mem_dropWhile {p : Char → Bool} {l : List Char} {c : Char}
    (h : c ∈ l.dropWhile p) : c ∈ l := by
  induction l with
  | nil => simp at h
  | cons a as ih =>
    by_cases hp : p a
    · rw [List.dropWhile_cons_of_pos hp] at h
      exact List.mem_cons_of_mem _ (ih h)
    · rw [List.dropWhile_cons_of_neg hp] at h
      exact h

theorem head?_dropWhile_not {p : Char → Bool} {l : List Char} {c : Char}
    (h : (l.dropWhile p).head? = some c) : p c = false := by
  induction l with
  | nil => simp at h
  | cons a as ih =>
    by_cases hp : p a
    · rw [List.dropWhile_cons_of_pos hp] at h
      exact ih h
    · rw [List.dropWhile_cons_of_neg hp] at h
      simp only [List.head?_cons, Option.some_inj] at h
      subst h
      exact Bool.eq_false_iff.mpr hp

theorem dropWhile_eq_self {p : Char → Bool} {l : List Char}
    (h : ∀ c, l.head? = some c → p c = false) : l.dropWhile p = l := by
  cases l with
  | nil => rfl
  | cons a as =>
    have := h a rfl
    rw [List.dropWhile_cons_of_neg (by simp [this])]

theorem head?_take {l : List Char} {n : Nat} {c : Char} (h : (l.take n).head? = some c) :
    l.head? = some c := by
  cases n with
  | zero => simp at h
  | succ m =>
    cases l with
    | nil => simp at h
    | cons a as => simpa using h

theorem translit_eq_self {nfkd : Char → List Char} {l : List Char}
    (hn : ∀ c, c.toNat < 128 → nfkd c = [c]) (h : ∀ c ∈ l, c.toNat < 128) :
    translit nfkd l = l := by
  induction l with
  | nil => rfl
  | cons a as ih =>
    have ha : a.toNat < 128 := h a (List.mem_cons_self a as)
    have has : translit nfkd as = as := ih (fun c hc => h c (List.mem_cons_of_mem a hc))
    simp only [translit, List.map_cons, List.flatten_cons, List.filter_append,
      hn a ha, List.filter_cons, decide_eq_true_eq, ha, if_pos, List.filter_nil]
    simp only [translit] at has
    rw [has]
    simp [ha]

theorem sanitizeCore_length_le (nfkd : Char → List Char) (x : List Char) (n : Nat) :
    (sanitizeCore nfkd x n).length ≤ n := by
  unfold sanitizeCore
  calc (rstripP isPunct ((stripP isPunct (subBad false (translit nfkd x))).take n)).length
      ≤ ((stripP isPunct (subBad false (translit nfkd x))).take n).length := rstripP_length _
    _ ≤ n := by simp [List.length_take]

theorem slugify_eq_unnamed {nfkd : Char → List Char} {x : List Char} {n : Nat}
    (h : sanitizeCore nfkd x n = []) : slugify nfkd x n = "unnamed".toList := by
  simp [slugify, h]

theorem slugify_eq_core {nfkd : Char → List Char} {x : List Char} {n : Nat}
    (h : sanitizeCore nfkd x n ≠ []) : slugify nfkd x n = sanitizeCore nfkd x n := by
  simp [slugify, h]

theorem slugify_mem_safe (nfkd : Char → List Char) (x : List Char) (n : Nat) :
    ∀ c ∈ slugify nfkd x n, isSafeChar c = true := by
  intro c hc
  by_cases h : sanitizeCore nfkd x n = []
  · rw [slugify_eq_unnamed h] at hc
    have : "unnamed".toList = ['u', 'n', 'n', 'a', 'm', 'e', 'd'] := rfl
    rw [this] at hc
    simp only [List.mem_cons, List.not_mem_nil, or_false] at hc
    rcases hc with rfl | rfl | rfl | rfl | rfl | rfl | rfl <;> decide
  · rw [slugify_eq_core h] at hc
    unfold sanitizeCore stripP at hc
    have h1 := mem_rstripP hc
    have h2 := List.take_subset _ _ h1
    have h3 := mem_rstripP h2
    have h4 := mem_dropWhile h3
    exact subBad_mem_safe false _ c h4

theorem slugify_head_not_punct (nfkd : Char → List Char) (x : List Char) (n : Nat) :
    ∀ c, (slugify nfkd x n).head? = some c → isPunct c = false := by
  intro c hc
  by_cases h : sanitizeCore nfkd x n = []
  · rw [slugify_eq_unnamed h] at hc
    have h2 : 'u' = c := by simpa using hc
    subst h2
    decide
  · rw [slugify_eq_core h] at hc
    unfold sanitizeCore stripP at hc
    have h1 := rstripP_head? hc
    have h2 := head?_take h1
    have h3 := rstripP_head? h2
    exact head?_dropWhile_not h3

theorem slugify_last_not_punct (nfkd : Char → List Char) (x : List Char) (n : Nat) :
    ∀ c, (slugify nfkd x n).getLast? = some c → isPunct c = false := by
  intro c hc
  by_cases h : sanitizeCore nfkd x n = []
  · rw [slugify_eq_unnamed h] at hc
    have h2 : 'd' = c := by simpa using hc
    subst h2
    decide
  · rw [slugify_eq_core h] at hc
    unfold sanitizeCore at hc
    exact rstripP_getLast? hc

theorem slugify_ne_nil (nfkd : Char → List Char) (x : List Char) (n : Nat) :
    slugify nfkd x n ≠ [] := by
  by_cases h : sanitizeCore nfkd x n = []
  · rw [slugify_eq_unnamed h]
    decide
  · rw [slugify_eq_core h]
    exact h

/-- Applying `slugify` to a string that is already in normal form (all
characters whitelisted, no leading or trailing punctuation, not longer
than the cap, nonempty) is the identity. -/
theorem slugify_fixed {nfkd : Char → List Char} {y : List Char} {n : Nat}
    (hnf : ∀ c, c.toNat < 128 → nfkd c = [c])
    (h1 : ∀ c ∈ y, isSafeChar c = true)
    (h2 : ∀ c, y.head? = some c → isPunct c = false)
    (h3 : ∀ c, y.getLast? = some c → isPunct c = false)
    (h4 : y.length ≤ n) (h5 : y ≠ []) :
    slugify nfkd y n = y := by
  have ht : translit nfkd y = y := translit_eq_self hnf (fun c hc => safe_ascii (h1 c hc))
  have hs : subBad false y = y := subBad_eq_self false y h1
  have hls : y.dropWhile isPunct = y := dropWhile_eq_self h2
  have hrs : rstripP isPunct y = y := rstripP_eq_self h3
  have hcore : sanitizeCore nfkd y n = y := by
    unfold sanitizeCore stripP
    rw [ht, hs, hls, hrs, List.take_of_length_le h4, hrs]
  rw [slugify_eq_core (by rw [hcore]; exact h5), hcore]

theorem renderLoop_none_nil (values : FieldMap) : renderLoop values none [] = some [] := rfl

theorem renderLoop_some_nil (values : FieldMap) (acc : List Char) :
    renderLoop values (some acc) [] = none := rfl

theorem renderLoop_open_open (values : FieldMap) (rest : List Char) :
    renderLoop values none ('\x7b' :: '\x7b' :: rest)
      = Option.map (fun t => '\x7b' :: t) (renderLoop values none rest) := by
  simp [renderLoop]

theorem renderLoop_open_other (values : FieldMap) (d : Char) (rest : List Char)
    (hd : d ≠ '\x7b') :
    renderLoop values none ('\x7b' :: d :: rest) = renderLoop values (some []) (d :: rest) := by
  rw [renderLoop.eq_def]
  simp [hd]

theorem renderLoop_open_nil (values : FieldMap) : renderLoop values none ['\x7b'] = none := by
  simp [renderLoop]

theorem renderLoop_close_close (values : FieldMap) (rest : List Char) :
    renderLoop values none ('\x7d' :: '\x7d' :: rest)
      = Option.map (fun t => '\x7d' :: t) (renderLoop values none rest) := by
  simp [renderLoop]

theorem renderLoop_close_other (values : FieldMap) (d : Char) (rest : List Char)
    (hd : d ≠ '\x7d') :
    renderLoop values none ('\x7d' :: d :: rest) = none := by
  rw [renderLoop.eq_def]
  simp [hd]

theorem renderLoop_close_nil (values : FieldMap) : renderLoop values none ['\x7d'] = none := by
  simp [renderLoop]

theorem renderLoop_plain (values : FieldMap) (c : Char) (rest : List Char)
    (h1 : c ≠ '\x7b') (h2 : c ≠ '\x7d') :
    renderLoop values none (c :: rest)
      = Option.map (fun t => c :: t) (renderLoop values none rest) := by
  rw [renderLoop.eq_def]
  simp [h1, h2]

theorem renderLoop_key_close (values : FieldMap) (acc rest : List Char) :
    renderLoop values (some acc) ('\x7d' :: rest)
      = Option.map (fun t => lookupField values acc ++ t) (renderLoop values none rest) := by
  simp [renderLoop]

theorem renderLoop_key_open (values : FieldMap) (acc rest : List Char) :
    renderLoop values (some acc) ('\x7b' :: rest) = none := by
  simp [renderLoop]

theorem renderLoop_key_plain (values : FieldMap) (acc : List Char) (c : Char) (rest : List Char)
    (h1 : c ≠ '\x7b') (h2 : c ≠ '\x7d') :
    renderLoop values (some acc) (c :: rest) = renderLoop values (some (acc ++ [c])) rest := by
  rw [renderLoop.eq_def]
  simp [h1, h2]

/-- Scanning a brace-free field name: the parser accumulates it and closes at
the following `\x7d`, substituting the `_SafeDict` lookup. -/
theorem renderLoop_key_append (values : FieldMap) :
    ∀ (k acc m₂ : List Char), (∀ c ∈ k, c ≠ '\x7b' ∧ c ≠ '\x7d') →
      renderLoop values (some acc) (k ++ '\x7d' :: m₂)
        = Option.map (fun t => lookupField values (acc ++ k) ++ t)
            (renderLoop values none m₂) := by
  intro k
  induction k with
  | nil =>
    intro acc m₂ _
    rw [List.nil_append, renderLoop_key_close]
    simp
  | cons c k' ih =>
    intro acc m₂ h
    have hc := h c (List.mem_cons_self c k')
    rw [List.cons_append, renderLoop_key_plain values acc c _ hc.1 hc.2]
    rw [ih (acc ++ [c]) m₂ (fun d hd => h d (List.mem_cons_of_mem c hd))]
    simp [List.append_assoc]

/-- Rendering distributes over appending template text: once a prefix
renders successfully, the remainder is rendered independently. -/
theorem renderLoop_append (values : FieldMap) :
    ∀ (n : Nat) (m₁ : List Char), m₁.length ≤ n →
      ∀ (mode : Option (List Char)) (r₁ : List Char),
        renderLoop values mode m₁ = some r₁ →
        ∀ m₂, renderLoop values mode (m₁ ++ m₂)
          = Option.map (fun t => r₁ ++ t) (renderLoop values none m₂) := by
  intro n
  induction n with
  | zero =>
    intro m₁ hlen mode r₁ h m₂
    have hnil : m₁ = [] := List.eq_nil_of_length_eq_zero (Nat.le_zero.mp hlen)
    subst hnil
    cases mode with
    | none =>
      rw [renderLoop_none_nil, Option.some_inj] at h
      subst h
      cases hm : renderLoop values none m₂ <;> simp [hm]
    | some acc =>
      rw [renderLoop_some_nil] at h
      exact absurd h (by simp)
  | succ n ih =>
    intro m₁ hlen mode r₁ h m₂
    cases m₁ with
    | nil =>
      cases mode with
      | none =>
        rw [renderLoop_none_nil, Option.some_inj] at h
        subst h
        cases hm : renderLoop values none m₂ <;> simp [hm]
      | some acc =>
        rw [renderLoop_some_nil] at h
        exact absurd h (by simp)
    | cons c rest =>
      have hrest : rest.length ≤ n := by
        simp only [List.length_cons] at hlen
        omega
      cases mode with
      | none =>
        by_cases hc : c = '\x7b'
        · subst hc
          cases rest with
          | nil =>
            rw [renderLoop_open_nil] at h
            exact absurd h (by simp)
          | cons d rest2 =>
            have hrest2 : rest2.length ≤ n := by
              simp only [List.length_cons] at hlen
              omega
            by_cases hd : d = '\x7b'
            · subst hd
              rw [renderLoop_open_open, Option.map_eq_some'] at h
              obtain ⟨t, ht, hr⟩ := h
              subst hr
              rw [List.cons_append, List.cons_append, renderLoop_open_open]
              rw [ih rest2 hrest2 none t ht m₂]
              cases hm : renderLoop values none m₂ <;> simp [hm]
            · rw [renderLoop_open_other values d rest2 hd] at h
              rw [List.cons_append, List.cons_append,
                renderLoop_open_other values d (rest2 ++ m₂) hd,
                show (d :: (rest2 ++ m₂) : List Char) = (d :: rest2) ++ m₂ from rfl]
              exact ih (d :: rest2) hrest (some []) r₁ h m₂
        · by_cases hc2 : c = '\x7d'
          · subst hc2
            cases rest with
            | nil =>
              rw [renderLoop_close_nil] at h
              exact absurd h (by simp)
            | cons d rest2 =>
              have hrest2 : rest2.length ≤ n := by
                simp only [List.length_cons] at hlen
                omega
              by_cases hd : d = '\x7d'
              · subst hd
                rw [renderLoop_close_close, Option.map_eq_some'] at h
                obtain ⟨t, ht, hr⟩ := h
                subst hr
                rw [List.cons_append, List.cons_append, renderLoop_close_close]
                rw [ih rest2 hrest2 none t ht m₂]
                cases hm : renderLoop values none m₂ <;> simp [hm]
              · rw [renderLoop_close_other values d rest2 hd] at h
                exact absurd h (by simp)
          · rw [renderLoop_plain values c rest hc hc2, Option.map_eq_some'] at h
            obtain ⟨t, ht, hr⟩ := h
            subst hr
            rw [List.cons_append, renderLoop_plain values c (rest ++ m₂) hc hc2]
            rw [ih rest hrest none t ht m₂]
            cases hm : renderLoop values none m₂ <;> simp [hm]
      | some acc =>
        by_cases hc : c = '\x7d'
        · subst hc
          rw [renderLoop_key_close, Option.map_eq_some'] at h
          obtain ⟨t, ht, hr⟩ := h
          subst hr
          rw [List.cons_append, renderLoop_key_close]
          rw [ih rest hrest none t ht m₂]
          cases hm : renderLoop values none m₂ <;> simp [hm]
        · by_cases hb : c = '\x7b'
          · subst hb
            rw [renderLoop_key_open] at h
            exact absurd h (by simp)
          · rw [renderLoop_key_plain values acc c rest hb hc] at h
            rw [List.cons_append, renderLoop_key_plain values acc c (rest ++ m₂) hb hc]
            exact ih rest hrest (some (acc ++ [c])) r₁ h m₂

/-- C5: in any template, once the text before a placeholder renders, a
placeholder `\x7b<field>\x7d` is substituted by the `_SafeDict` lookup:
the mapped value when the field is present, the visible diagnostic token
`[<field>NotFound]` when absent — never an error. -/
theorem render_mask_placeholder_spec (values : FieldMap) (m₁ m₂ k r₁ : List Char)
    (hk : ∀ c ∈ k, c ≠ '\x7b' ∧ c ≠ '\x7d')
    (h₁ : render_mask m₁ values = some r₁) :
    render_mask (m₁ ++ '\x7b' :: (k ++ '\x7d' :: m₂)) values
      = Option.map (fun t => r₁ ++ (lookupField values k ++ t)) (render_mask m₂ values)
    ∧ (values.find? (fun p => p.1 == k) = none →
        lookupField values k = '[' :: (k ++ "NotFound]".toList))
    ∧ (∀ q, values.find? (fun p => p.1 == k) = some q → lookupField values k = q.2) := by
  refine ⟨?_, ?_, ?_⟩
  · unfold render_mask at h₁ ⊢
    rw [renderLoop_append values m₁.length m₁ le_rfl none r₁ h₁ ('\x7b' :: (k ++ '\x7d' :: m₂))]
    have hplace : renderLoop values none ('\x7b' :: (k ++ '\x7d' :: m₂))
        = Option.map (fun t => lookupField values k ++ t) (renderLoop values none m₂) := by
      cases k with
      | nil =>
        rw [List.nil_append, renderLoop_open_other values '\x7d' m₂ (by decide)]
        have := renderLoop_key_append values [] [] m₂ (by simp)
        simpa using this
      | cons c k' =>
        have hc := hk c (List.mem_cons_self c k')
        rw [List.cons_append, renderLoop_open_other values c (k' ++ '\x7d' :: m₂) hc.1]
        have := renderLoop_key_append values (c :: k') [] m₂ hk
        rw [List.cons_append] at this
        simpa using this
    rw [hplace]
    cases hm : renderLoop values none m₂ <;> simp [hm]
  · intro h
    unfold lookupField
    rw [h]
  · intro q h
    unfold lookupField
    rw [h]

/-- Witness for `render_mask_placeholder_spec` at a concrete template with a
missing field. -/
theorem render_mask_placeholder_witness :
    render_mask ("a".toList ++ '\x7b' :: ("x".toList ++ '\x7d' :: "b".toList))
        [("year".toList, "2020".toList)]
      = Option.map
          (fun t => "a".toList ++ (lookupField [("year".toList, "2020".toList)] "x".toList ++ t))
          (render_mask "b".toList [("year".toList, "2020".toList)])
    ∧ lookupField [("year".toList, "2020".toList)] "x".toList
        = '[' :: ("x".toList ++ "NotFound]".toList) := by
  have h := render_mask_placeholder_spec [("year".toList, "2020".toList)]
    "a".toList "b".toList "x".toList "a".toList (by decide) (by decide)
  exact ⟨h.1, h.2.1 (by decide)⟩

/-- C1 counterexample: slugify is NOT idempotent for every fixed max length.
At the concrete input `x = ""`, `n = 3` the first application returns the
7-character fallback `"unnamed"`, and the second application truncates it
to `"unn"`.  The NFKD oracle `nfkdAscii` agrees with the real
NFKD + ascii-ignore pipeline on these ASCII-only inputs. -/
theorem slugify_not_idempotent_small_max :
    slugify nfkdAscii (slugify nfkdAscii "".toList 3) 3 ≠ slugify nfkdAscii "".toList 3 := by
  decide

/-- C1 (amended): for every NFKD oracle that is the identity on ASCII, every
input string and every max length of at least 7 (in particular the default
30), slugify is idempotent: `slugify (slugify x n) n = slugify x n`.  (For
`n < 7` idempotence can fail, because the fallback `"unnamed"` has 7
characters; see the counterexample.) -/
theorem slugify_idempotent (nfkd : Char → List Char)
    (hnf : ∀ c, c.toNat < 128 → nfkd c = [c]) (x : List Char) (n : Nat) (h7 : 7 ≤ n) :
    slugify nfkd (slugify nfkd x n) n = slugify nfkd x n := by
  have hlen : (slugify nfkd x n).length ≤ n := by
    by_cases h : sanitizeCore nfkd x n = []
    · rw [slugify_eq_unnamed h]
      simpa using h7
    · rw [slugify_eq_core h]
      exact sanitizeCore_length_le nfkd x n
  exact slugify_fixed hnf (slugify_mem_safe nfkd x n) (slugify_head_not_punct nfkd x n)
    (slugify_last_not_punct nfkd x n) hlen (slugify_ne_nil nfkd x n)

/-- Witness for `slugify_idempotent` at a concrete input. -/
theorem slugify_idempotent_witness :
    (∀ c : Char, c.toNat < 128 → nfkdAscii c = [c]) ∧ 7 ≤ 30 ∧
    slugify nfkdAscii (slugify nfkdAscii "Hello, World!".toList 30) 30
      = slugify nfkdAscii "Hello, World!".toList 30 :=
  ⟨fun c hc => by simp [nfkdAscii, hc], by decide,
   slugify_idempotent nfkdAscii (fun c hc => by simp [nfkdAscii, hc])
     "Hello, World!".toList 30 (by decide)⟩

/-- C2: for every NFKD oracle, input and max length, the slugify output
contains only characters from `[A-Za-z0-9._-]`, never begins or ends with
`.`, `_` or `-`, and both the empty input and any input whose sanitized
form is empty yield exactly the literal `"unnamed"`. -/
theorem slugify_output_charset (nfkd : Char → List Char) (x : List Char) (n : Nat) :
    (∀ c ∈ slugify nfkd x n, isSafeChar c = true)
    ∧ (∀ c, (slugify nfkd x n).head? = some c → isPunct c = false)
    ∧ (∀ c, (slugify nfkd x n).getLast? = some c → isPunct c = false)
    ∧ (x = [] → slugify nfkd x n = "unnamed".toList)
    ∧ (sanitizeCore nfkd x n = [] → slugify nfkd x n = "unnamed".toList) := by
  refine ⟨slugify_mem_safe nfkd x n, slugify_head_not_punct nfkd x n,
    slugify_last_not_punct nfkd x n, ?_, slugify_eq_unnamed⟩
  intro hx
  subst hx
  apply slugify_eq_unnamed
  simp [sanitizeCore, stripP, translit, subBad, rstripP]

/-- Witness for `slugify_output_charset` at concrete inputs. -/
theorem slugify_output_charset_witness :
    isSafeChar 'b' = true ∧ isPunct 'a' = false ∧ isPunct 'b' = false ∧
    slugify nfkdAscii "".toList 5 = "unnamed".toList :=
  ⟨(slugify_output_charset nfkdAscii "a.b!".toList 30).1 'b' (by decide),
   (slugify_output_charset nfkdAscii "a.b!".toList 30).2.1 'a' (by decide),
   (slugify_output_charset nfkdAscii "a.b!".toList 30).2.2.1 'b' (by decide),
   (slugify_output_charset nfkdAscii "".toList 5).2.2.2.1 (by decide)⟩

/-- C10: whenever the sanitized string (steps 1-4 of slugify) is empty the
literal `"unnamed"` of length 7 is returned, which exceeds the cap when
`max_len < 7`; for every input that does not sanitize to empty the output
length is at most `max_len`. -/
theorem slugify_length_bound (nfkd : Char → List Char) (x : List Char) (n : Nat) :
    (sanitizeCore nfkd x n = [] →
      slugify nfkd x n = "unnamed".toList ∧ (slugify nfkd x n).length = 7)
    ∧ (sanitizeCore nfkd x n ≠ [] → (slugify nfkd x n).length ≤ n) := by
  constructor
  · intro h
    refine ⟨slugify_eq_unnamed h, ?_⟩
    rw [slugify_eq_unnamed h]
    decide
  · intro h
    rw [slugify_eq_core h]
    exact sanitizeCore_length_le nfkd x n

/-- Witness for `slugify_length_bound`: at `max_len = 3` the empty input
yields the 7-character `"unnamed"` (length bound exceeded), while an input
sanitizing to nonempty is capped at 3. -/
theorem slugify_length_bound_witness :
    (slugify nfkdAscii "".toList 3 = "unnamed".toList
      ∧ (slugify nfkdAscii "".toList 3).length = 7)
    ∧ (slugify nfkdAscii "abcdef".toList 3).length ≤ 3 :=
  ⟨(slugify_length_bound nfkdAscii "".toList 3).1 (by decide),
   (slugify_length_bound nfkdAscii "abcdef".toList 3).2 (by decide)⟩

/-- C6: with zero query result rows, `parse_metadata` returns the all-default
record: `year="1970"`, `month="01"`, `day="01"`, `date="1970-01-01"`,
`title="Untitled"`, `subtitle=""`, `type="UNKNOWN"`, `eli=""`,
`celex_identifier=""`, and `default_identifier` equal to the item's
identifier. -/
theorem parse_metadata_defaults (nfkd : Char → List Char) (uuid : List Char) :
    getField (parse_metadata nfkd uuid []) "year".toList = some "1970".toList
    ∧ getField (parse_metadata nfkd uuid []) "month".toList = some "01".toList
    ∧ getField (parse_metadata nfkd uuid []) "day".toList = some "01".toList
    ∧ getField (parse_metadata nfkd uuid []) "date".toList = some "1970-01-01".toList
    ∧ getField (parse_metadata nfkd uuid []) "title".toList = some "Untitled".toList
    ∧ getField (parse_metadata nfkd uuid []) "subtitle".toList = some []
    ∧ getField (parse_metadata nfkd uuid []) "type".toList = some "UNKNOWN".toList
    ∧ getField (parse_metadata nfkd uuid []) "eli".toList = some []
    ∧ getField (parse_metadata nfkd uuid []) "celex_identifier".toList = some []
    ∧ getField (parse_metadata nfkd uuid []) defaultIdentifierKey = some uuid :=
  ⟨rfl, rfl, rfl, rfl, rfl, rfl, rfl, rfl, rfl, rfl⟩

theorem splitOnChar_no_sep {sep : Char} {s : List Char} (h : sep ∉ s) :
    splitOnChar sep s = [s] := by
  induction s with
  | nil => rfl
  | cons c cs ih =>
    have hc : c ≠ sep := fun e => h (e ▸ List.mem_cons_self c cs)
    have hcs : sep ∉ cs := fun m => h (List.mem_cons_of_mem c m)
    simp [splitOnChar, hc, ih hcs, consHead]

theorem splitOnChar_append_sep {sep : Char} {s : List Char} (t : List Char) (h : sep ∉ s) :
    splitOnChar sep (s ++ sep :: t) = s :: splitOnChar sep t := by
  induction s with
  | nil => simp [splitOnChar]
  | cons c cs ih =>
    have hc : c ≠ sep := fun e => h (e ▸ List.mem_cons_self c cs)
    have hcs : sep ∉ cs := fun m => h (List.mem_cons_of_mem c m)
    simp [splitOnChar, hc, ih hcs, consHead]

/-- C7 counterexample: `"a-b-c"` is not in `YYYY-MM-DD` form, yet
`parse_metadata` returns the non-empty components `year = "a"`,
`month = "b"`, `day = "c"` instead of blanking all three: the code only
counts dash-separated parts, it never validates digits. -/
theorem parse_metadata_date_counterexample :
    dateIsYYYYMMDD "a-b-c".toList = false
    ∧ getField (parse_metadata nfkdAscii "u".toList [rowMalformedDate]) "year".toList
        = some "a".toList
    ∧ getField (parse_metadata nfkdAscii "u".toList [rowMalformedDate]) "month".toList
        = some "b".toList := by
  refine ⟨by decide, by decide, by decide⟩

/-- C7 (amended): whenever the first row's date splits at `-` into exactly
three parts `y-m-d` the record's year, month and day are those parts —
this covers every well-formed `YYYY-MM-DD` date but also non-digit
three-part strings — and whenever the split does not have exactly three
parts all three components are returned empty, without failing. -/
theorem parse_metadata_date_split (nfkd : Char → List Char) (uuid : List Char)
    (row : QueryRow) (rest : List QueryRow) (y m d : List Char)
    (hy : '-' ∉ y) (hm : '-' ∉ m) (hd : '-' ∉ d)
    (hdate : row.date = y ++ '-' :: (m ++ '-' :: d)) :
    (getField (parse_metadata nfkd uuid (row :: rest)) "year".toList = some y
     ∧ getField (parse_metadata nfkd uuid (row :: rest)) "month".toList = some m
     ∧ getField (parse_metadata nfkd uuid (row :: rest)) "day".toList = some d)
    ∧ (∀ (row2 : QueryRow) (rest2 : List QueryRow),
        (splitOnChar '-' row2.date).length ≠ 3 →
        getField (parse_metadata nfkd uuid (row2 :: rest2)) "year".toList = some []
        ∧ getField (parse_metadata nfkd uuid (row2 :: rest2)) "month".toList = some []
        ∧ getField (parse_metadata nfkd uuid (row2 :: rest2)) "day".toList = some []) := by
  constructor
  · have hsplit : splitOnChar '-' row.date = [y, m, d] := by
      rw [hdate, splitOnChar_append_sep _ hy, splitOnChar_append_sep _ hm,
        splitOnChar_no_sep hd]
    simp only [parse_metadata, hsplit]
    exact ⟨rfl, rfl, rfl⟩
  · intro row2 rest2 hlen
    rcases hs2 : splitOnChar '-' row2.date with _ | ⟨a, _ | ⟨b, _ | ⟨c, _ | t⟩⟩⟩ <;>
      simp only [parse_metadata, hs2]
    · exact ⟨rfl, rfl, rfl⟩
    · exact ⟨rfl, rfl, rfl⟩
    · exact ⟨rfl, rfl, rfl⟩
    · rw [hs2] at hlen
      simp at hlen
    · exact ⟨rfl, rfl, rfl⟩

/-- Witness for `parse_metadata_date_split` on a well-formed date and a
dash-free date. -/
theorem parse_metadata_date_split_witness :
    (getField (parse_metadata nfkdAscii "u".toList [rowGoodDate]) "year".toList
        = some "2020".toList
     ∧ getField (parse_metadata nfkdAscii "u".toList [rowGoodDate]) "month".toList
        = some "05".toList
     ∧ getField (parse_metadata nfkdAscii "u".toList [rowGoodDate]) "day".toList
        = some "17".toList)
    ∧ (getField (parse_metadata nfkdAscii "u".toList [rowNoDashDate]) "year".toList = some []
       ∧ getField (parse_metadata nfkdAscii "u".toList [rowNoDashDate]) "month".toList = some []
       ∧ getField (parse_metadata nfkdAscii "u".toList [rowNoDashDate]) "day".toList = some []) := by
  have h := parse_metadata_date_split nfkdAscii "u".toList rowGoodDate []
    "2020".toList "05".toList "17".toList (by decide) (by decide) (by decide) (by decide)
  exact ⟨h.1, h.2 rowNoDashDate [] (by decide)⟩

/-- C4 counterexample: with `--limit 0` the claim predicts `min(0, 2) = 0`
files processed, but the code only truncates when `limit > 0`, so all 2
files are processed. -/
theorem limit_zero_keeps_all :
    (selectFiles ["b".toList, "a".toList] (some 0)).length = 2
    ∧ min ((0 : Int).toNat) 2 = 0 := by
  constructor
  · decide
  · decide

/-- C4 (amended): for every positive integer `N` passed as `--limit`, the
batch keeps exactly `min(N, totalFiles)` files, namely the first `N` of the
lexically ascending sort of the enumerated posix paths; the kept list is
sorted and the sort is a permutation of the enumeration.  (For `N ≤ 0` the
truncation is skipped and every file is processed; see the
counterexample.) -/
theorem limit_takes_sorted (files : List (List Char)) (n : Int) (hn : 0 < n) :
    selectFiles files (some n) = (List.insertionSort relLe files).take n.toNat
    ∧ (selectFiles files (some n)).length = min n.toNat files.length
    ∧ List.Sorted relLe (selectFiles files (some n))
    ∧ (List.insertionSort relLe files).Perm files := by
  have hsel : selectFiles files (some n) = (List.insertionSort relLe files).take n.toNat := by
    simp [selectFiles, hn]
  refine ⟨hsel, ?_, ?_, List.perm_insertionSort relLe files⟩
  · rw [hsel, List.length_take, (List.perm_insertionSort relLe files).length_eq]
  · rw [hsel]
    exact List.Pairwise.sublist (List.take_sublist _ _) (List.sorted_insertionSort relLe files)

/-- Witness for `limit_takes_sorted` at `--limit 2` over three files. -/
theorem limit_takes_sorted_witness :
    (selectFiles ["b".toList, "a".toList, "c".toList] (some 2)).length = 2
    ∧ List.Sorted relLe (selectFiles ["b".toList, "a".toList, "c".toList] (some 2)) := by
  have h := limit_takes_sorted ["b".toList, "a".toList, "c".toList] 2 (by decide)
  refine ⟨?_, h.2.2.1⟩
  rw [h.2.1]
  decide

/-- C9: when the archive root is not a segment prefix of the source path,
the item is reported as skipped before any metadata lookup or copy — the
result does not depend on the RDF-existence oracle, the query oracle or the
destination filesystem, which are all universally quantified here. -/
theorem copy_skips_outside_root (nfkd : Char → List Char) (hasRdf : List Char → Bool)
    (queryOf : List Char → List QueryRow) (fs : List Pth)
    (src archive_root output_root : List (List Char)) (folder_mask file_mask : List Char)
    (h : archive_root.isPrefixOf src = false) :
    copy_with_structure nfkd hasRdf queryOf fs src archive_root output_root
        folder_mask file_mask
      = ItemResult.skippedNoUuid := by
  simp [copy_with_structure, h]

/-- Witness for `copy_skips_outside_root` on a source outside the root. -/
theorem copy_skips_outside_root_witness :
    copy_with_structure nfkdAscii (fun _ => true) (fun _ => []) []
        ["other".toList, "f.txt".toList] ["root".toList] ["out".toList] [] []
      = ItemResult.skippedNoUuid :=
  copy_skips_outside_root nfkdAscii (fun _ => true) (fun _ => []) []
    ["other".toList, "f.txt".toList] ["root".toList] ["out".toList] [] [] (by decide)

/-- C8: in the destination filename the stem is the rendered file mask when
it is nonempty after whitespace trimming; when it trims to empty the stem
falls back to the record's `default_identifier` (when present and
nonempty), and then to the source file's own stem; in every case the
source file's suffix is appended verbatim. -/
theorem build_destination_stem_fallback (out : List (List Char)) (md : FieldMap)
    (fmask fimask srcName r : List Char) (dirs : List (List Char)) (fname : List Char)
    (hr : render_mask fimask md = some r)
    (hb : build_destination out md fmask fimask srcName = some ⟨dirs, fname⟩) :
    (stripP Char.isWhitespace r ≠ [] →
      fname = stripP Char.isWhitespace r ++ sfx srcName)
    ∧ (stripP Char.isWhitespace r = [] →
        ∀ v, getField md defaultIdentifierKey = some v → v ≠ [] →
          fname = v ++ sfx srcName)
    ∧ (stripP Char.isWhitespace r = [] →
        getField md defaultIdentifierKey = some [] →
          fname = stm srcName ++ sfx srcName)
    ∧ (stripP Char.isWhitespace r = [] →
        getField md defaultIdentifierKey = none →
          fname = stm srcName ++ sfx srcName) := by
  unfold build_destination at hb
  cases hf : render_mask fmask md with
  | none =>
    rw [hf] at hb
    simp at hb
  | some rawSubR =>
    rw [hf, hr] at hb
    simp only [Option.some_inj, Pth.mk.injEq] at hb
    obtain ⟨_, hname⟩ := hb
    refine ⟨?_, ?_, ?_, ?_⟩
    · intro hne
      cases hs : stripP Char.isWhitespace r with
      | nil => exact absurd hs hne
      | cons s t =>
        rw [hs] at hname
        exact hname.symm
    · intro hs v hv hvne
      rw [hs, hv] at hname
      simp [hvne] at hname
      exact hname.symm
    · intro hs hv
      rw [hs, hv] at hname
      simp at hname
      exact hname.symm
    · intro hs hv
      rw [hs, hv] at hname
      exact hname.symm

/-- Witness for `build_destination_stem_fallback`: the mask renders to a
nonempty stem and the source suffix `.pdf` is appended. -/
theorem build_destination_stem_fallback_witness :
    stripP Char.isWhitespace "T1".toList ≠ ([] : List Char)
    ∧ "T1.pdf".toList = stripP Char.isWhitespace "T1".toList ++ sfx "doc.pdf".toList := by
  have h := build_destination_stem_fallback ["out".toList]
    [("title".toList, "T1".toList), (defaultIdentifierKey, "id9".toList)]
    [] ('\x7b' :: ("title".toList ++ ['\x7d'])) "doc.pdf".toList "T1".toList
    ["out".toList] "T1.pdf".toList (by decide) (by decide)
  exact ⟨by decide, h.1 (by decide)⟩

theorem digitChar_digit : ∀ d, d < 10 → (Nat.digitChar d).isDigit = true := by decide

theorem digitChar_inj10 : ∀ a, a < 10 → ∀ b, b < 10 → Nat.digitChar a = Nat.digitChar b → a = b := by
  decide

theorem natDigits_all_digit : ∀ n, ∀ c ∈ natDigits n, c.isDigit = true := by
  intro n
  induction n using Nat.strong_induction_on with
  | _ n ih =>
    by_cases h : n < 10
    · have heq : natDigits n = [Nat.digitChar n] := by
        rw [natDigits.eq_def, dif_pos h]
      rw [heq]
      intro c hc
      simp only [List.mem_singleton] at hc
      subst hc
      exact digitChar_digit n h
    · have heq : natDigits n = natDigits (n / 10) ++ [Nat.digitChar (n % 10)] := by
        rw [natDigits.eq_def, dif_neg h]
      rw [heq]
      intro c hc
      rcases List.mem_append.mp hc with hc | hc
      · exact ih (n / 10) (Nat.div_lt_self (by omega) (by omega)) c hc
      · simp only [List.mem_singleton] at hc
        subst hc
        exact digitChar_digit _ (Nat.mod_lt n (by omega))

theorem singleton_append_inj {xs ys : List Char} {x y : Char}
    (h : xs ++ [x] = ys ++ [y]) : xs = ys ∧ x = y := by
  have h' := congrArg List.reverse h
  simp only [List.reverse_append, List.reverse_singleton, List.singleton_append,
    List.cons.injEq, List.reverse_inj] at h'
  exact ⟨h'.2, h'.1⟩

theorem natDigits_inj : ∀ a b, natDigits a = natDigits b → a = b := by
  intro a
  induction a using Nat.strong_induction_on with
  | _ a ih =>
    intro b h
    by_cases ha : a < 10 <;> by_cases hb : b < 10
    · have ea : natDigits a = [Nat.digitChar a] := by rw [natDigits.eq_def, dif_pos ha]
      have eb : natDigits b = [Nat.digitChar b] := by rw [natDigits.eq_def, dif_pos hb]
      rw [ea, eb] at h
      simp only [List.cons.injEq, and_true] at h
      exact digitChar_inj10 a ha b hb h
    · have ea : natDigits a = [Nat.digitChar a] := by rw [natDigits.eq_def, dif_pos ha]
      have eb : natDigits b = natDigits (b / 10) ++ [Nat.digitChar (b % 10)] := by
        rw [natDigits.eq_def, dif_neg hb]
      rw [ea, eb] at h
      have hl := congrArg List.length h
      cases hx : natDigits (b / 10) with
      | nil => exact absurd hx (natDigits_ne_nil (b / 10))
      | cons c cs =>
        rw [hx] at hl
        simp at hl
    · have ea : natDigits a = natDigits (a / 10) ++ [Nat.digitChar (a % 10)] := by
        rw [natDigits.eq_def, dif_neg ha]
      have eb : natDigits b = [Nat.digitChar b] := by rw [natDigits.eq_def, dif_pos hb]
      rw [ea, eb] at h
      have hl := congrArg List.length h
      cases hx : natDigits (a / 10) with
      | nil => exact absurd hx (natDigits_ne_nil (a / 10))
      | cons c cs =>
        rw [hx] at hl
        simp at hl
    · have ea : natDigits a = natDigits (a / 10) ++ [Nat.digitChar (a % 10)] := by
        rw [natDigits.eq_def, dif_neg ha]
      have eb : natDigits b = natDigits (b / 10) ++ [Nat.digitChar (b % 10)] := by
        rw [natDigits.eq_def, dif_neg hb]
      rw [ea, eb] at h
      obtain ⟨h1, h2⟩ := singleton_append_inj h
      have hdiv := ih (a / 10) (Nat.div_lt_self (by omega) (by omega)) (b / 10) h1
      have hmod := digitChar_inj10 (a % 10) (Nat.mod_lt a (by omega))
        (b % 10) (Nat.mod_lt b (by omega)) h2
      omega

/-- Cancelling a decimal block against a continuation that does not start
with a digit. -/
theorem digits_append_cancel : ∀ (d₁ d₂ s₁ s₂ : List Char),
    (∀ c ∈ d₁, c.isDigit = true) → (∀ c ∈ d₂, c.isDigit = true) →
    (∀ c, s₁.head? = some c → c.isDigit = false) →
    (∀ c, s₂.head? = some c → c.isDigit = false) →
    d₁ ++ s₁ = d₂ ++ s₂ → d₁ = d₂ := by
  intro d₁
  induction d₁ with
  | nil =>
    intro d₂ s₁ s₂ _ hd₂ hs₁ _ h
    cases d₂ with
    | nil => rfl
    | cons b bs =>
      rw [List.nil_append] at h
      have h1 := hs₁ b (by rw [h]; rfl)
      have h2 := hd₂ b (List.mem_cons_self b bs)
      rw [h1] at h2
      exact absurd h2 (by simp)
  | cons a as ih =>
    intro d₂ s₁ s₂ hd₁ hd₂ hs₁ hs₂ h
    cases d₂ with
    | nil =>
      rw [List.nil_append] at h
      have h1 := hs₂ a (by rw [← h]; rfl)
      have h2 := hd₁ a (List.mem_cons_self a as)
      rw [h1] at h2
      exact absurd h2 (by simp)
    | cons b bs =>
      simp only [List.cons_append, List.cons.injEq] at h
      obtain ⟨rfl, h⟩ := h
      rw [ih bs s₁ s₂ (fun c hc => hd₁ c (List.mem_cons_of_mem a hc))
        (fun c hc => hd₂ c (List.mem_cons_of_mem a hc)) hs₁ hs₂ h]

theorem splitLastDot_eq {name bef aft : List Char}
    (h : splitLastDot name = some (bef, aft)) : name = bef ++ '.' :: aft := by
  simp only [splitLastDot] at h
  cases hd : name.reverse.dropWhile (fun c => !(c == '.')) with
  | nil =>
    rw [hd] at h
    simp at h
  | cons c ra =>
    rw [hd] at h
    by_cases hc : c = '.'
    · subst hc
      rw [if_pos (by simp)] at h
      simp only [List.tail_cons, Option.some_inj, Prod.mk.injEq] at h
      obtain ⟨h1, h2⟩ := h
      have hsplit := @List.takeWhile_append_dropWhile _ (fun c => !(c == '.')) name.reverse
      rw [hd] at hsplit
      have hrev : name
          = ((name.reverse.takeWhile (fun c => !(c == '.'))) ++ '.' :: ra).reverse := by
        rw [hsplit, List.reverse_reverse]
      rw [hrev, List.reverse_append, List.reverse_cons, ← h1, ← h2]
      simp [List.append_assoc]
    · rw [if_neg (by simp [hc])] at h
      simp at h

theorem sfx_head (name : List Char) : sfx name = [] ∨ ∃ t, sfx name = '.' :: t := by
  rcases hs : splitLastDot name with _ | ⟨bef, aft⟩
  · left
    simp [sfx, hs]
  · by_cases h : bef ≠ [] ∧ aft ≠ []
    · right
      exact ⟨aft, by simp [sfx, hs, h]⟩
    · left
      simp [sfx, hs, h]

theorem sfx_head_not_digit (name : List Char) :
    ∀ c, (sfx name).head? = some c → c.isDigit = false := by
  intro c hc
  rcases sfx_head name with h | ⟨t, h⟩
  · rw [h] at hc
    simp at hc
  · rw [h] at hc
    simp only [List.head?_cons, Option.some_inj] at hc
    subst hc
    decide

theorem stm_append_sfx (name : List Char) : stm name ++ sfx name = name := by
  rcases hs : splitLastDot name with _ | ⟨bef, aft⟩
  · simp [stm, sfx, hs]
  · have hname := splitLastDot_eq hs
    by_cases h : bef ≠ [] ∧ aft ≠ []
    · simp only [stm, sfx, hs, h, if_pos, and_self]
      rw [if_pos h, if_pos h, hname]
    · simp only [stm, sfx, hs]
      rw [if_neg h, if_neg h]
      simp

theorem cand_name_succ (path : Pth) (fb : List Char) (k : Nat) :
    (cand path fb (k + 1)).name
      = (stm path.name ++ '_' :: (fb ++ ['_']))
          ++ (natDigits (k + 1) ++ sfx (cand path fb k).name) := by
  simp [cand, withStem, List.append_assoc]

theorem cand_zero_ne_succ (path : Pth) (fb : List Char) (k : Nat) :
    cand path fb 0 ≠ cand path fb (k + 1) := by
  intro h
  have hn := congrArg Pth.name h
  rw [cand_name_succ] at hn
  rw [show (cand path fb 0).name = path.name from rfl] at hn
  have hn' : stm path.name ++ sfx path.name
      = stm path.name ++ ('_' :: (fb ++ ['_']) ++ (natDigits (k + 1)
          ++ sfx (cand path fb k).name)) :=
    calc stm path.name ++ sfx path.name = path.name := stm_append_sfx _
      _ = stm path.name ++ '_' :: (fb ++ ['_'])
            ++ (natDigits (k + 1) ++ sfx (cand path fb k).name) := hn
      _ = stm path.name ++ ('_' :: (fb ++ ['_'])
            ++ (natDigits (k + 1) ++ sfx (cand path fb k).name)) := by
          rw [List.append_assoc]
  have hc := List.append_cancel_left hn'
  rcases sfx_head path.name with h2 | ⟨t, h2⟩ <;> rw [h2] at hc
  · simp at hc
  · simp only [List.cons_append, List.cons.injEq] at hc
    exact absurd hc.1 (by decide)

theorem cand_succ_inj (path : Pth) (fb : List Char) (j k : Nat)
    (h : cand path fb (j + 1) = cand path fb (k + 1)) : j = k := by
  have hn := congrArg Pth.name h
  rw [cand_name_succ, cand_name_succ] at hn
  have hc := List.append_cancel_left hn
  have hd := digits_append_cancel (natDigits (j + 1)) (natDigits (k + 1)) _ _
    (natDigits_all_digit _) (natDigits_all_digit _)
    (sfx_head_not_digit _) (sfx_head_not_digit _) hc
  have := natDigits_inj _ _ hd
  omega

theorem cand_inj (path : Pth) (fb : List Char) :
    ∀ j k, cand path fb j = cand path fb k → j = k := by
  intro j k h
  cases j with
  | zero =>
    cases k with
    | zero => rfl
    | succ k' => exact absurd h (cand_zero_ne_succ path fb k')
  | succ j' =>
    cases k with
    | zero => exact absurd h.symm (cand_zero_ne_succ path fb j')
    | succ k' => rw [cand_succ_inj path fb j' k' h]

/-- C3: `ensure_unique_path` terminates with a correct result: a
non-existing path is returned unchanged, the returned path never exists in
the (finite) existing set, and the candidate sequence built from the
original stem, the identifier token and the incrementing counter is
pairwise distinct — which is what guarantees a free candidate is reached. -/
theorem ensure_unique_path_spec (fs : List Pth) (path : Pth) (fallback : List Char) :
    (path ∉ fs → ensure_unique_path fs path fallback = path)
    ∧ ensure_unique_path fs path fallback ∉ fs
    ∧ (∀ j k, j ≠ k → cand path fallback j ≠ cand path fallback k) := by
  refine ⟨?_, Nat.find_spec (exists_free_cand fs path fallback), ?_⟩
  · intro hp
    unfold ensure_unique_path
    have h0 : Nat.find (exists_free_cand fs path fallback) = 0 := by
      rw [Nat.find_eq_zero]
      exact hp
    rw [h0]
    rfl
  · intro j k hjk heq
    exact hjk (cand_inj path fallback j k heq)

/-- Witness for `ensure_unique_path_spec`: an absent path is returned as-is,
a present path's replacement is fresh, and two candidates differ. -/
theorem ensure_unique_path_spec_witness :
    ensure_unique_path [] (⟨[], "a.txt".toList⟩ : Pth) "u1".toList = ⟨[], "a.txt".toList⟩
    ∧ ensure_unique_path [⟨[], "a.txt".toList⟩] (⟨[], "a.txt".toList⟩ : Pth) "u1".toList
        ∉ [(⟨[], "a.txt".toList⟩ : Pth)]
    ∧ cand (⟨[], "a.txt".toList⟩ : Pth) "u1".toList 1
        ≠ cand (⟨[], "a.txt".toList⟩ : Pth) "u1".toList 2 :=
  ⟨(ensure_unique_path_spec [] ⟨[], "a.txt".toList⟩ "u1".toList).1 (by simp),
   (ensure_unique_path_spec [⟨[], "a.txt".toList⟩] ⟨[], "a.txt".toList⟩ "u1".toList).2.1,
   (ensure_unique_path_spec [] ⟨[], "a.txt".toList⟩ "u1".toList).2.2 1 2 (by decide)⟩

end Undump
